import Mathlib

/-!
# go-json-filter-cel: the streaming filter pipeline

A shallow embedding of `json2cel2filtered.go`:

* `CelProgram.Filter`, `CelValue.ToBool`
* `JsonLines.ToMap`, `JsonReader.ToMaps`
* `JsonMaps.ToFiltered`
* `JsonWriter.WriteAll`

Go push iterators (`iter.Seq`, `iter.Seq2`) are embedded in state-passing
style: the iterator is a function of the consumer's `yield` and of the
consumer's state, and returns the consumer's state after the run.  The
external libraries (`encoding/json`, `bufio`, `cel-go`, `context`) enter as
parameters; concrete instances of them are given for streams of documents and
for a buffered writer over a sink.
-/

namespace Json2Cel2Filtered

/-! ## Go values -/

/-- Go `error` values the package can observe (a nil error is `none` of
`Option GoError`). -/
inductive GoError where
  /-- The package variable `ErrNotBool = errors.New("not bool type")`. -/
  | ErrNotBool
  /-- The value `io.EOF`. -/
  | EOF
  /-- The value `context.Canceled`. -/
  | Canceled
  /-- The value `context.DeadlineExceeded`. -/
  | DeadlineExceeded
  /-- Any other error value, named by its message. -/
  | other (msg : String)
  deriving DecidableEq, Repr

/-- Go `map[string]any` with values in `V`: `none` is the nil map, a non-nil map
keeps its entries as an association list. -/
abbrev GoMap (V : Type) := Option (List (String × V))

/-- The builtin `clear(m)`: deletes all entries; a nil map stays nil. -/
def clear {V : Type} : GoMap V → GoMap V
  | none => none
  | some _ => some []

/-- The assignment `m[k] = v`.  (On a nil map Go panics; the only map assigned to
in the package is `item`, which is never nil.) -/
def setKey {V : Type} (m : GoMap V) (k : String) (v : V) : GoMap V :=
  match m with
  | none => none
  | some es => some (es.filter (fun kv => kv.1 ≠ k) ++ [(k, v)])

/-- One element of an `iter.Seq2[map[string]any, error]`. -/
abbrev Elem (V : Type) := GoMap V × Option GoError

/-- The dynamic value `v.Val.Value()` of a CEL result, by its Go type. -/
inductive GoAny where
  | bool (b : Bool)
  | int64 (i : Int)
  | uint64 (n : Nat)
  | string (s : String)
  | bytes (b : List Nat)
  | null
  | other (tag : String)
  deriving DecidableEq, Repr

/-- The state of a `context.Context` as one observation sees it: `ctx.Err()`,
which is nil (`none`) until the context is done. -/
abbrev CtxState := Option GoError

/-- A `context.Context` along logical time: `ctx t` is `ctx.Err()` at the `t`-th
observation of the context by the pipeline. -/
abbrev Context := Nat → CtxState

/-! ## The predicate program -/

/-- The result `(tr.Val, *cel.EvalDetails, error)` of an evaluation; the details
are dropped (the package ignores them). -/
structure EvalOut where
  val : GoAny
  err : Option GoError
  deriving DecidableEq, Repr

/-- Go `type CelProgram struct{ cel.Program }`: the external `ContextEval` of the
compiled program, a function of the context's state and of the input. -/
structure CelProgram (In : Type) where
  ContextEval : CtxState → In → EvalOut

/-- Go `func (p CelProgram) Eval(ctx, input)`. -/
def CelProgram.Eval {In : Type} (p : CelProgram In) (ctx : CtxState) (input : In) : EvalOut :=
  p.ContextEval ctx input

/-- Go `func (v CelValue) ToBool() (bool, error)`: a type switch on `v.Val.Value()`. -/
def CelValue.ToBool (v : GoAny) : Bool × Option GoError :=
  match v with
  | GoAny.bool t => (t, none)
  | _ => (false, some GoError.ErrNotBool)

/-- Go `func (p CelProgram) Filter(ctx, input) (keep bool, e error)`. -/
def CelProgram.Filter {In : Type} (p : CelProgram In) (ctx : CtxState) (input : In) :
    Bool × Option GoError :=
  let r := p.Eval ctx input
  match r.err with
  | some e => (false, some e)
  | none => CelValue.ToBool r.val

/-! ## Push iterators -/

/-- The outcome of running an iterator to its return. -/
structure Ran (σ I : Type) where
  /-- The consumer's state after the run. -/
  state : σ
  /-- What the iterator itself has reached (its position in its input). -/
  info : I
  /-- Whether the iterator function returned; `false` when the model ran out of
  fuel before it did. -/
  returned : Bool

/-- Go `iter.Seq[P]` / `iter.Seq2[K, V]` (with `P = K × V`): a function of the
consumer's `yield`, threading the consumer's state `σ`. -/
def IterSeq (P I : Type) : Type 1 :=
  (σ : Type) → (σ → P → σ × Bool) → σ → Ran σ I

/-- Go `type JsonMaps iter.Seq2[map[string]any, error]`. -/
abbrev Seq2 (V I : Type) := IterSeq (Elem V) I

/-- The loop of `ofList`; `n` counts the elements handed to `yield`. -/
def ofList.loop {P σ : Type} (yield : σ → P → σ × Bool) : List P → Nat → σ → Ran σ Nat
  | [], n, s => ⟨s, n, true⟩
  | p :: ps, n, s =>
    let y := yield s p
    if y.2 then ofList.loop yield ps (n + 1) y.1 else ⟨y.1, n + 1, true⟩

/-- The iterator over a finite list (`slices.Values` / `maps.All` style): yields the
elements in order and stops as soon as `yield` returns false.  Its `info` is the
number of elements it handed out. -/
def ofList {P : Type} (l : List P) : IterSeq P Nat :=
  fun _ yield s => ofList.loop yield l 0 s

/-- A source of elements with internal state `U`: `next u` is the next element and
state, or `none` at the end. -/
structure Source (U P : Type) where
  next : U → Option (P × U)

/-- The loop of `Source.seq`. -/
def Source.loop {U P σ : Type} (src : Source U P) (yield : σ → P → σ × Bool) :
    Nat → U → σ → Ran σ U
  | 0, u, s => ⟨s, u, false⟩
  | fuel + 1, u, s =>
    match src.next u with
    | none => ⟨s, u, true⟩
    | some (p, u') =>
      let y := yield s p
      if y.2 then Source.loop src yield fuel u' y.1 else ⟨y.1, u', true⟩

/-- An arbitrary (possibly unbounded) iterator that honours the protocol: it
produces its elements one at a time and returns when `yield` returns false. -/
def Source.seq {U P : Type} (src : Source U P) (fuel : Nat) (u : U) : IterSeq P U :=
  fun _ yield s => Source.loop src yield fuel u s

/-- The consumer that keeps every element and always asks for more. -/
def collect {P : Type} (s : List P) (p : P) : List P × Bool := (s ++ [p], true)

/-! ## Decoding -/

/-- Go `json.Unmarshal(line, &buf)`, external: from the line and the current `buf`
to the new `buf` and the error. -/
abbrev Unmarshal (V : Type) := List Nat → GoMap V → GoMap V × Option GoError

/-- The body of the range loop of `JsonLines.ToMap`; the loop state is the
consumer's state and `buf`. -/
def JsonLines.ToMap.body {V σ : Type} (unmarshal : Unmarshal V)
    (yield : σ → Elem V → σ × Bool) (st : σ × GoMap V) (line : List Nat) :
    (σ × GoMap V) × Bool :=
  let buf := clear st.2
  let d := unmarshal line buf
  let y := yield st.1 (d.1, d.2)
  if !y.2 then ((y.1, d.1), false) else ((y.1, d.1), true)

/-- Go `func (l JsonLines) ToMap() iter.Seq2[map[string]any, error]`. -/
def JsonLines.ToMap {V I : Type} (unmarshal : Unmarshal V) (l : IterSeq (List Nat) I) :
    Seq2 V I :=
  fun σ yield s =>
    let r := l (σ × GoMap V) (JsonLines.ToMap.body unmarshal yield) (s, some [])
    ⟨r.state.1, r.info, r.returned⟩

/-- Go `json.NewDecoder(bufio.NewReader(r.Reader))`, external: `Decode r buf` is
`dec.Decode(&buf)` on reader state `r`: the new reader state, the new `buf` and
the error. -/
structure Decoder (S V : Type) where
  Decode : S → GoMap V → S × GoMap V × Option GoError

/-- The `for { ... }` loop of `JsonReader.ToMaps`. -/
def JsonReader.ToMaps.loop {S V σ : Type} (dec : Decoder S V)
    (yield : σ → Elem V → σ × Bool) : Nat → S → GoMap V → σ → Ran σ S
  | 0, r, _, s => ⟨s, r, false⟩
  | fuel + 1, r, buf, s =>
    let buf := clear buf
    let d := dec.Decode r buf
    if d.2.2 = some GoError.EOF then ⟨s, d.1, true⟩
    else
      let y := yield s (d.2.1, d.2.2)
      if !y.2 then ⟨y.1, d.1, true⟩
      else JsonReader.ToMaps.loop dec yield fuel d.1 d.2.1 y.1

/-- Go `func (r JsonReader) ToMaps() iter.Seq2[map[string]any, error]`; `info` is the
reader's state when the iterator stops. -/
def JsonReader.ToMaps {S V : Type} (dec : Decoder S V) (r : S) (fuel : Nat) : Seq2 V S :=
  fun _ yield s => JsonReader.ToMaps.loop dec yield fuel r (some []) s

/-! ## Filtering -/

/-- What `JsonMaps.ToFiltered` does, in the order it does it. -/
inductive Event (V : Type) where
  /-- The loop body received `p` from upstream, at logical time `t`. -/
  | recv (t : Nat) (p : Elem V)
  /-- The case `<-ctx.Done()` was taken and `ctx.Err()` was `e`. -/
  | done (e : GoError)
  /-- The call `prog.Filter(ctx, item)` returned `(keep, err)`. -/
  | filter (item : GoMap (GoMap V)) (keep : Bool) (err : Option GoError)
  /-- The call `yield(p)` to the consumer. -/
  | yield (p : Elem V)
  deriving DecidableEq

/-- The variables of the closure of `JsonMaps.ToFiltered`: the binding `item`,
and (not in the source) the logical clock of context observations and the
record of events. -/
structure FilterState (V : Type) where
  item : GoMap (GoMap V)
  clock : Nat
  trace : List (Event V)

/-- The body of the range loop of `JsonMaps.ToFiltered`: the new loop state, and
whether the loop goes on (`false` after `return`). -/
def JsonMaps.ToFiltered.body {V σ : Type} (ctx : Context)
    (prog : CelProgram (GoMap (GoMap V))) (yield : σ → Elem V → σ × Bool)
    (st : σ × FilterState V) (p : Elem V) : (σ × FilterState V) × Bool :=
  let s := st.1
  let t := st.2.clock
  let obj := p.1
  let item := clear st.2.item
  let tr := st.2.trace ++ [Event.recv t p]
  match p.2 with
  | some err =>
    ((( yield s (none, some err)).1,
      ⟨item, t, tr ++ [Event.yield (none, some err)]⟩), false)
  | none =>
    match ctx t with
    | some cerr =>
      ((( yield s (none, some cerr)).1,
        ⟨item, t + 1, tr ++ [Event.done cerr, Event.yield (none, some cerr)]⟩), false)
    | none =>
      let item := setKey item "item" obj
      let r := prog.Filter (ctx (t + 1)) item
      let tr := tr ++ [Event.filter item r.1 r.2]
      match r.2 with
      | some err =>
        ((( yield s (none, some err)).1,
          ⟨item, t + 2, tr ++ [Event.yield (none, some err)]⟩), false)
      | none =>
        if !r.1 then ((s, ⟨item, t + 2, tr⟩), true)
        else
          let y := yield s (obj, none)
          ((y.1, ⟨item, t + 2, tr ++ [Event.yield (obj, none)]⟩), y.2)

/-- Go `func (m JsonMaps) ToFiltered(ctx, prog) iter.Seq2[map[string]any, error]`;
`info` is the upstream's `info` and the final closure variables. -/
def JsonMaps.ToFiltered {V I : Type} (m : Seq2 V I) (ctx : Context)
    (prog : CelProgram (GoMap (GoMap V))) : Seq2 V (I × FilterState V) :=
  fun σ yield s =>
    let r := m (σ × FilterState V) (JsonMaps.ToFiltered.body ctx prog yield)
      (s, ⟨some [], 0, []⟩)
    ⟨r.state.1, (r.info, r.state.2), r.returned⟩

/-! ## Encoding -/

/-- Go `json.NewEncoder(bufio.NewWriter(w.Writer))`, external, with writer state `W`:
`Encode w v` is `enc.Encode(v)` and `Flush w` is `bwtr.Flush()`. -/
structure EncoderOps (W V : Type) where
  Encode : W → GoMap V → W × Option GoError
  Flush : W → W × Option GoError

/-- The body of the range loop of `JsonWriter.WriteAll`; the loop state is the
writer and the error the function returns with, if it has returned. -/
def JsonWriter.WriteAll.body {W V : Type} (enc : EncoderOps W V)
    (st : W × Option GoError) (p : Elem V) : (W × Option GoError) × Bool :=
  match p.2 with
  | some e => ((st.1, some e), false)
  | none =>
    let r := enc.Encode st.1 p.1
    match r.2 with
    | some e => ((r.1, some e), false)
    | none => ((r.1, none), true)

/-- The result of `JsonWriter.WriteAll`. -/
structure Written (W I : Type) where
  /-- The returned error: `none` while the call has not returned (fuel ran out),
  `some none` for a nil error. -/
  ret : Option (Option GoError)
  /-- The writer afterwards. -/
  writer : W
  /-- The `info` of the sequence it consumed. -/
  info : I

/-- Go `func (w JsonWriter) WriteAll(ctx, jmaps) error` (the context is not used). -/
def JsonWriter.WriteAll {W V I : Type} (enc : EncoderOps W V) (w : W) (_ctx : Context)
    (jmaps : Seq2 V I) : Written W I :=
  let r := jmaps (W × Option GoError) (JsonWriter.WriteAll.body enc) (w, none)
  if r.returned then
    match r.state.2 with
    | some e => ⟨some (some e), r.state.1, r.info⟩
    | none =>
      let f := enc.Flush r.state.1
      ⟨some f.2, f.1, r.info⟩
  else ⟨none, r.state.1, r.info⟩

/-! ## The external libraries, for streams of documents and a buffered sink -/

/-- What a byte stream holds between two positions, as `encoding/json` reads it. -/
inductive Chunk (V : Type) where
  /-- A run of whitespace between values. -/
  | space
  /-- A well-formed JSON object that the decoder stores without error; `m` are its
  members in the order of the text (a key may occur more than once). -/
  | object (m : List (String × V))
  /-- A well-formed JSON object that holds a number outside `float64` (such as
  `1e999`): the decoder reads it whole, stores the members `m` (a nil value for such
  a number) and reports `e` (an `UnmarshalTypeError`). -/
  | objectOutOfRange (m : List (String × V)) (e : GoError)
  /-- A well-formed JSON object nested deeper than the decoder's limit of 10000: the
  decoder reports `e` (a `SyntaxError`, "exceeded max depth") and keeps reporting
  it on every later call. -/
  | objectTooDeep (e : GoError)
  /-- The JSON value `null`: decodes to the nil map, without error. -/
  | null
  /-- A well-formed JSON value that is no object (a number, an array, ...): the
  decoder reads it whole and reports `e` (an `UnmarshalTypeError`). -/
  | nonObject (e : GoError)
  /-- Text that is not JSON: the decoder reports `e` (a `SyntaxError`) and keeps
  reporting it on every later call. -/
  | malformed (e : GoError)
  deriving DecidableEq

/-- The members `m` of a JSON object stored into `buf` as `encoding/json` does: the
map is allocated when nil, and each member is assigned in the order of the text,
so that a later member replaces an earlier one of the same key. -/
def decodeInto {V : Type} (buf : GoMap V) (m : List (String × V)) : GoMap V :=
  m.foldl (fun acc kv => setKey acc kv.1 kv.2) (some (buf.getD []))

/-- The record that a JSON object with the members `m` decodes to in an empty map. -/
def recordOf {V : Type} (m : List (String × V)) : GoMap V := decodeInto (some []) m

/-- Go `dec.Decode(&buf)` of `encoding/json` on a stream of chunks: whitespace is
skipped, an object is stored into `buf`, the end of the stream is `io.EOF`. -/
def streamDecode {V : Type} : List (Chunk V) → GoMap V → List (Chunk V) × GoMap V × Option GoError
  | [], buf => ([], buf, some GoError.EOF)
  | Chunk.space :: rest, buf => streamDecode rest buf
  | Chunk.object m :: rest, buf => (rest, decodeInto buf m, none)
  | Chunk.objectOutOfRange m e :: rest, buf => (rest, decodeInto buf m, some e)
  | Chunk.objectTooDeep e :: rest, buf => (Chunk.objectTooDeep e :: rest, buf, some e)
  | Chunk.null :: rest, _ => (rest, none, none)
  | Chunk.nonObject e :: rest, buf => (rest, buf, some e)
  | Chunk.malformed e :: rest, buf => (Chunk.malformed e :: rest, buf, some e)

/-- The decoder of `encoding/json` over a stream of chunks. -/
def streamDecoder (V : Type) : Decoder (List (Chunk V)) V := ⟨streamDecode⟩

/-- The members of the objects of a stream that decode without error, in order. -/
def objectsOf {V : Type} : List (Chunk V) → List (List (String × V))
  | [] => []
  | Chunk.object m :: rest => m :: objectsOf rest
  | _ :: rest => objectsOf rest

/-- A stream of well-formed JSON objects with optional separating whitespace. -/
def wellFormed {V : Type} : List (Chunk V) → Bool
  | [] => true
  | Chunk.space :: rest => wellFormed rest
  | Chunk.object _ :: rest => wellFormed rest
  | Chunk.objectOutOfRange _ _ :: rest => wellFormed rest
  | Chunk.objectTooDeep _ :: rest => wellFormed rest
  | _ :: _ => false

/-- A stream of well-formed JSON objects with optional separating whitespace, each
of which the decoder stores without error. -/
def decodable {V : Type} : List (Chunk V) → Bool
  | [] => true
  | Chunk.space :: rest => decodable rest
  | Chunk.object _ :: rest => decodable rest
  | _ :: _ => false

/-- A `bufio.Writer` over a sink (`w.Writer`). -/
structure BufWriter where
  /-- The bytes the sink has taken. -/
  sink : List Nat
  /-- The buffered bytes `b.buf[:b.n]`. -/
  buf : List Nat
  /-- The sticky error `b.err`. -/
  err : Option GoError
  deriving DecidableEq, Repr

/-- The size of the buffer of `bufio.NewWriter`. -/
def bufSize : Nat := 4096

/-- Go `bufio.NewWriter(w.Writer)` over an empty sink. -/
def BufWriter.new : BufWriter := ⟨[], [], none⟩

/-- The sink's `Write(p)`, external: `fail written p` is the error of writing `p`
after `written`; a failing write takes no byte. -/
abbrev SinkFail := List Nat → List Nat → Option GoError

/-- The sink that never fails. -/
def neverFails : SinkFail := fun _ _ => none

/-- Go `func (b *Writer) Flush() error` of `bufio`. -/
def BufWriter.Flush (fail : SinkFail) (w : BufWriter) : BufWriter × Option GoError :=
  match w.err with
  | some e => (w, some e)
  | none =>
    if w.buf.length = 0 then (w, none)
    else
      match fail w.sink w.buf with
      | some e => ({ w with err := some e }, some e)
      | none => ({ w with sink := w.sink ++ w.buf, buf := [] }, none)

/-- The direct write of `p` to the sink by `bufio` ("large write, empty buffer"). -/
def BufWriter.direct (fail : SinkFail) (w : BufWriter) (p : List Nat) :
    BufWriter × Option GoError :=
  match fail w.sink p with
  | some e => ({ w with err := some e }, some e)
  | none => ({ w with sink := w.sink ++ p }, none)

/-- Go `func (b *Writer) Write(p []byte) (nn int, err error)` of `bufio`, its loop
unrolled: `p` is buffered when it fits; otherwise an empty buffer is bypassed,
and a non-empty one is filled and flushed before the rest of `p` is handled. -/
def BufWriter.Write (fail : SinkFail) (w : BufWriter) (p : List Nat) :
    BufWriter × Option GoError :=
  match w.err with
  | some e => (w, some e)
  | none =>
    if p.length ≤ bufSize - w.buf.length then ({ w with buf := w.buf ++ p }, none)
    else if w.buf.length = 0 then BufWriter.direct fail w p
    else
      let n := bufSize - w.buf.length
      let f := BufWriter.Flush fail { w with buf := w.buf ++ p.take n }
      match f.2 with
      | some e => (f.1, some e)
      | none =>
        if (p.drop n).length ≤ bufSize - f.1.buf.length then
          ({ f.1 with buf := f.1.buf ++ p.drop n }, none)
        else BufWriter.direct fail f.1 (p.drop n)

/-- Go `json.Marshal`, external. -/
abbrev Marshal (V : Type) := GoMap V → List Nat × Option GoError

/-- Go `func (enc *Encoder) Encode(v any) error` of `encoding/json` over the
`bufio.Writer`: the marshalled value and a newline, in one `Write`. -/
def jsonEncode {V : Type} (marshal : Marshal V) (fail : SinkFail) (w : BufWriter)
    (v : GoMap V) : BufWriter × Option GoError :=
  match (marshal v).2 with
  | some e => (w, some e)
  | none => BufWriter.Write fail w ((marshal v).1 ++ [10])

/-- The encoder `json.NewEncoder(bufio.NewWriter(w.Writer))` of `WriteAll`. -/
def jsonEncoder {V : Type} (marshal : Marshal V) (fail : SinkFail) :
    EncoderOps BufWriter V :=
  ⟨jsonEncode marshal fail, BufWriter.Flush fail⟩

/-- The output of a run: one newline-terminated document for each record. -/
def documents (docs : List (List Nat)) : List Nat :=
  (docs.map (fun b => b ++ [10])).flatten

/-- Go `func sub() error` of `cmd/json-filter-cel/main.go` from the reader on:
`JsonReader.ToMaps`, `JsonMaps.ToFiltered` and `JsonWriter.WriteAll` over one
context (`context.Background()` in `main.go`). -/
def pipeline {S V : Type} (dec : Decoder S V) (r : S) (fuel : Nat) (ctx : Context)
    (prog : CelProgram (GoMap (GoMap V))) (marshal : Marshal V) (fail : SinkFail) :
    Written BufWriter (S × FilterState V) :=
  JsonWriter.WriteAll (jsonEncoder marshal fail) BufWriter.new ctx
    (JsonMaps.ToFiltered (JsonReader.ToMaps dec r fuel) ctx prog)

/-- The context that is never cancelled (`context.Background()`). -/
def background : Context := fun _ => none

/-- A sample `json.Marshal` for maps of natural numbers: the JSON text, keys in
stored order. -/
def sampleMarshal : Marshal Nat
  | none => ([110, 117, 108, 108], none)
  | some es =>
    ([123] ++ (List.intercalate [44]
      (es.map (fun kv => [34] ++ kv.1.toList.map Char.toNat ++ [34, 58] ++
        (Nat.repr kv.2).toList.map Char.toNat))) ++ [125], none)

/-- A sample `json.Marshal` for maps whose values are natural numbers or nil
(`null`): the JSON text, keys in stored order. -/
def sampleMarshalNull : Marshal (Option Nat)
  | none => ([110, 117, 108, 108], none)
  | some es =>
    ([123] ++ (List.intercalate [44]
      (es.map (fun kv => [34] ++ kv.1.toList.map Char.toNat ++ [34, 58] ++
        (match kv.2 with
          | none => [110, 117, 108, 108]
          | some v => (Nat.repr v).toList.map Char.toNat)))) ++ [125], none)

/-- The binding `{"item": obj}` that `ToFiltered` passes to the program. -/
def binding {V : Type} (obj : GoMap V) : GoMap (GoMap V) := some [("item", obj)]

/-- A sample program: `item.a > 1` on maps of natural numbers (an absent key is
an evaluation error). -/
def sampleProgram : CelProgram (GoMap (GoMap Nat)) :=
  ⟨fun c input =>
    match c with
    | some e => ⟨GoAny.null, some e⟩
    | none =>
      match input with
      | some [("item", some es)] =>
        match es.lookup "a" with
        | some v => ⟨GoAny.bool (decide (1 < v)), none⟩
        | none => ⟨GoAny.null, some (GoError.other "no such key: a")⟩
      | _ => ⟨GoAny.null, some (GoError.other "no such attribute")⟩⟩

/-- The program of a constant expression (`true`, `false`, `"x"`, ...). -/
def constProgram (In : Type) (v : GoAny) : CelProgram In := ⟨fun _ _ => ⟨v, none⟩⟩

/-! ## Properties of traces and of yielded sequences -/

/-- An event that hands the consumer an element carrying a non-nil error. -/
def Event.isErrYield {V : Type} : Event V → Bool
  | Event.yield (_, some _) => true
  | _ => false

/-- The event `c` is the receipt of an upstream element carrying the error `e`. -/
def Event.isUpstreamError {V : Type} (c : Event V) (e : GoError) : Prop :=
  ∃ t x, c = Event.recv t (x, some e)

/-- The event `c` is a call of `prog.Filter` that failed with the error `e`. -/
def Event.isFilterError {V : Type} (prog : CelProgram (GoMap (GoMap V))) (c : Event V)
    (e : GoError) : Prop :=
  ∃ item keep cs, c = Event.filter item keep (some e) ∧ prog.Filter cs item = (keep, some e)

/-- The event `c` is the observation that the context is done with `ctx.Err() = e`. -/
def Event.isCancellation {V : Type} (c : Event V) (e : GoError) : Prop :=
  c = Event.done e

/-- The causes of an error element that the code has: the upstream error, the
cancellation of the context, the failure of `prog.Filter`. -/
def Event.isCause {V : Type} (prog : CelProgram (GoMap (GoMap V))) (c : Event V)
    (e : GoError) : Prop :=
  Event.isUpstreamError c e ∨ Event.isCancellation c e ∨ Event.isFilterError prog c e

/-- The two causes of an error element that do not involve the context: the
upstream error and the failure of `prog.Filter`. -/
def Event.isUpstreamOrFilterError {V : Type} (prog : CelProgram (GoMap (GoMap V)))
    (c : Event V) (e : GoError) : Prop :=
  Event.isUpstreamError c e ∨ Event.isFilterError prog c e

/-- First-error-terminates, on the trace of `ToFiltered`: an element yielded with a
non-nil error `e` is the last event of the run (nothing is received from upstream,
evaluated or yielded after it), its record is nil, and the event right before it
is a cause of `e`. -/
def FirstErrorTerminates {V : Type} (cause : Event V → GoError → Prop)
    (tr : List (Event V)) : Prop :=
  ∀ pre obj e rest, tr = pre ++ Event.yield (obj, some e) :: rest →
    rest = [] ∧ obj = none ∧ ∃ pre' c, pre = pre' ++ [c] ∧ cause c e

/-- A sequence of elements in which nothing follows an element carrying a non-nil
error. -/
def ErrorTerminating {V : Type} (log : List (Elem V)) : Prop :=
  ∀ pre p rest, log = pre ++ p :: rest → p.2 ≠ none → rest = []

/-- The consumer `yield`, made to record every element it is handed. -/
def tee {P σ : Type} (yield : σ → P → σ × Bool) (st : σ × List P) (p : P) :
    (σ × List P) × Bool :=
  (((yield st.1 p).1, st.2 ++ [p]), (yield st.1 p).2)

/-- The writer after encoding the records `rs` in order, when every `Encode`
succeeds; `none` when one of them fails. -/
def encodeAll {W V : Type} (enc : EncoderOps W V) : W → List (GoMap V) → Option W
  | w, [] => some w
  | w, r :: rs =>
    match (enc.Encode w r).2 with
    | none => encodeAll enc (enc.Encode w r).1 rs
    | some _ => none

/-- The elements a trace hands to the consumer, in order. -/
def yieldsOf {V : Type} (tr : List (Event V)) : List (Elem V) :=
  tr.filterMap (fun ev => match ev with
    | Event.yield p => some p
    | _ => none)

/-- The finite list as a source. -/
def listSource (P : Type) : Source (List P) P :=
  ⟨fun l => match l with
    | [] => none
    | p :: ps => some (p, ps)⟩

/-- A sample `json.Unmarshal` for maps of natural numbers: the line `{}` decodes
(it adds no entry, and allocates a nil map); any other line is a syntax error. -/
def sampleUnmarshal : Unmarshal Nat := fun line buf =>
  if line = [123, 125] then
    (match buf with
      | none => some []
      | some es => some es, none)
  else (buf, some (GoError.other "invalid character"))

/-! ## Theorems -/

section Filter

variable {In : Type}

/-- C5: `CelProgram.Filter` returns `(b, nil)` exactly when the evaluation succeeds
with a value whose underlying value is the boolean `b`; when it succeeds with a
value of another type the result is `(false, ErrNotBool)`; when it fails with `e`
the result is `(false, e)`. -/
theorem CelProgram.Filter_spec (p : CelProgram In) (ctx : CtxState) (input : In) :
    (∀ b, p.Filter ctx input = (b, none) ↔
      ((p.Eval ctx input).err = none ∧ (p.Eval ctx input).val = GoAny.bool b)) ∧
    ((p.Eval ctx input).err = none → (∀ b, (p.Eval ctx input).val ≠ GoAny.bool b) →
      p.Filter ctx input = (false, some GoError.ErrNotBool)) ∧
    (∀ e, (p.Eval ctx input).err = some e → p.Filter ctx input = (false, some e)) := by
  simp only [CelProgram.Filter]
  refine ⟨?_, ?_, ?_⟩
  · intro b
    cases herr : (p.Eval ctx input).err with
    | some e => simp
    | none =>
      cases hval : (p.Eval ctx input).val <;> simp [CelValue.ToBool]
  · intro herr hval
    rw [herr]
    cases hv : (p.Eval ctx input).val with
    | bool b => exact absurd hv (hval b)
    | _ => simp [CelValue.ToBool]
  · intro e herr
    rw [herr]

end Filter

section Invariants

/-- The invariant rule for a protocol-honouring iterator: what holds of the
consumer's state before, and is kept by every `yield` that asks for more, leads to
`Post` when the iterator stops, whether at its end, on `yield` returning false, or
cut off by the fuel. -/
theorem Source.loop_inv {U P σ : Type} (src : Source U P) (yield : σ → P → σ × Bool)
    (Inv Post : σ → Prop) (hpost : ∀ s, Inv s → Post s)
    (hstep : ∀ s p, Inv s →
      if (yield s p).2 = true then Inv (yield s p).1 else Post (yield s p).1) :
    ∀ (fuel : Nat) (u : U) (s : σ), Inv s → Post (Source.loop src yield fuel u s).state := by
  intro fuel
  induction fuel with
  | zero => intro u s h; exact hpost s h
  | succ n ih =>
    intro u s h
    simp only [Source.loop]
    cases hn : src.next u with
    | none => exact hpost s h
    | some pu =>
      obtain ⟨p, u'⟩ := pu
      have hs := hstep s p h
      by_cases hy : (yield s p).2 = true
      · simp only [hy, if_true] at hs ⊢
        exact ih u' _ hs
      · simp only [hy, if_false] at hs ⊢
        simpa using hs

/-- Where a list `old ++ blk` has an element `x` that `old` has none like, the
element lies in `blk`. -/
theorem append_split {α : Type} (Q : α → Prop) {old blk pre rest : List α} {x : α}
    (hold : ∀ y ∈ old, ¬ Q y) (hx : Q x) (h : old ++ blk = pre ++ x :: rest) :
    ∃ q, pre = old ++ q ∧ blk = q ++ x :: rest := by
  rcases List.append_eq_append_iff.mp h with ⟨a, ha, hb⟩ | ⟨c, hc, hd⟩
  · exact ⟨a, ha, hb⟩
  · cases c with
    | nil =>
      refine ⟨[], ?_, ?_⟩
      · simpa using hc.symm
      · simpa using hd.symm
    | cons c cs =>
      simp only [List.cons_append, List.cons.injEq] at hd
      obtain ⟨rfl, _⟩ := hd
      exact absurd hx (hold _ (by simp [hc]))

end Invariants

section FilterStage

variable {V σ : Type}

/-- A block of events appended to a trace without error elements keeps
first-error-terminates when the block itself ends at its error element. -/
theorem firstError_append (cause : Event V → GoError → Prop) (old blk : List (Event V))
    (hold : ∀ ev ∈ old, Event.isErrYield ev = false)
    (hblk : ∀ q obj e rest, blk = q ++ Event.yield (obj, some e) :: rest →
      rest = [] ∧ obj = none ∧ ∃ c, q.getLast? = some c ∧ cause c e) :
    FirstErrorTerminates cause (old ++ blk) := by
  intro pre obj e rest h
  obtain ⟨q, hq, hb⟩ := append_split (fun ev => Event.isErrYield ev = true)
    (fun y hy => by simp [hold y hy]) (by rfl) h
  obtain ⟨h1, h2, c, hc, hcause⟩ := hblk q obj e rest hb
  refine ⟨h1, h2, ?_⟩
  obtain ⟨q', rfl⟩ : ∃ q', q = q' ++ [c] := by
    rcases List.eq_nil_or_concat q with hnil | ⟨q', c', hq'⟩
    · simp [hnil] at hc
    · rw [hq'] at hc
      simp at hc
      exact ⟨q', by simp [hq', hc]⟩
  exact ⟨old ++ q', c, by simp [hq], hcause⟩

/-- One iteration of `ToFiltered` keeps the trace free of error elements while the
loop goes on, and ends it at the error element when it returns. -/
theorem ToFiltered_body_firstError (ctx : Context) (prog : CelProgram (GoMap (GoMap V)))
    (yield : σ → Elem V → σ × Bool) (st : σ × FilterState V) (p : Elem V)
    (h : ∀ ev ∈ st.2.trace, Event.isErrYield ev = false) :
    if (JsonMaps.ToFiltered.body ctx prog yield st p).2 = true then
      ∀ ev ∈ (JsonMaps.ToFiltered.body ctx prog yield st p).1.2.trace,
        Event.isErrYield ev = false
    else FirstErrorTerminates (Event.isCause prog)
      (JsonMaps.ToFiltered.body ctx prog yield st p).1.2.trace := by
  obtain ⟨obj, err⟩ := p
  simp only [JsonMaps.ToFiltered.body]
  cases err with
  | some e =>
    simp only [List.append_assoc, List.singleton_append]
    simp only [Bool.false_eq_true, if_false]
    apply firstError_append _ _ _ h
    intro q obj' e' rest hq
    rcases q with _ | ⟨a, _ | ⟨b, q⟩⟩ <;> simp at hq
    obtain ⟨rfl, ⟨rfl, rfl⟩, rfl⟩ := hq
    exact ⟨rfl, rfl, _, rfl, Or.inl ⟨_, _, rfl⟩⟩
  | none =>
    simp only
    cases hc : ctx st.2.clock with
    | some cerr =>
      simp only [List.append_assoc, List.singleton_append, Bool.false_eq_true, if_false]
      apply firstError_append _ _ _ h
      intro q obj' e' rest hq
      rcases q with _ | ⟨a, _ | ⟨b, _ | ⟨c, q⟩⟩⟩ <;> simp at hq
      obtain ⟨rfl, rfl, ⟨rfl, rfl⟩, rfl⟩ := hq
      exact ⟨rfl, rfl, _, rfl, Or.inr (Or.inl rfl)⟩
    | none =>
      simp only
      cases hf : (prog.Filter (ctx (st.2.clock + 1))
          (setKey (clear st.2.item) "item" obj)).2 with
      | some ferr =>
        simp only [List.append_assoc, List.singleton_append, Bool.false_eq_true, if_false]
        apply firstError_append _ _ _ h
        intro q obj' e' rest hq
        rcases q with _ | ⟨a, _ | ⟨b, _ | ⟨c, q⟩⟩⟩ <;> simp at hq
        obtain ⟨rfl, rfl, ⟨rfl, rfl⟩, rfl⟩ := hq
        refine ⟨rfl, rfl, _, rfl, Or.inr (Or.inr ⟨_, _, ctx (st.2.clock + 1), rfl, ?_⟩)⟩
        rw [← hf]
      | none =>
        simp only
        cases hk : (prog.Filter (ctx (st.2.clock + 1))
            (setKey (clear st.2.item) "item" obj)).1 with
        | false =>
          simp only [Bool.not_false, if_true]
          intro ev hev
          simp only [List.append_assoc, List.mem_append, List.mem_cons, List.mem_singleton,
            List.not_mem_nil, or_false] at hev
          rcases hev with hev | rfl | rfl
          · exact h ev hev
          · rfl
          · rfl
        | true =>
          simp only [Bool.not_true, Bool.false_eq_true, if_false]
          split
          · intro ev hev
            simp only [List.append_assoc, List.mem_append, List.mem_cons, List.mem_singleton,
              List.not_mem_nil, or_false] at hev
            rcases hev with hev | rfl | rfl | rfl
            · exact h ev hev
            · rfl
            · rfl
            · rfl
          · simp only [List.append_assoc, List.singleton_append]
            apply firstError_append _ _ _ h
            intro q obj' e' rest hq
            rcases q with _ | ⟨a, _ | ⟨b, _ | ⟨c, q⟩⟩⟩ <;> simp at hq

/-- One iteration of `ToFiltered` records in the trace exactly the elements it
hands to the consumer. -/
theorem ToFiltered_body_yields (ctx : Context) (prog : CelProgram (GoMap (GoMap V)))
    (yield : σ → Elem V → σ × Bool) (st : (σ × List (Elem V)) × FilterState V) (p : Elem V)
    (h : st.1.2 = yieldsOf st.2.trace) :
    (JsonMaps.ToFiltered.body ctx prog (tee yield) st p).1.1.2 =
      yieldsOf (JsonMaps.ToFiltered.body ctx prog (tee yield) st p).1.2.trace := by
  obtain ⟨obj, err⟩ := p
  simp only [JsonMaps.ToFiltered.body]
  cases err with
  | some e => simp [tee, yieldsOf, h, List.filterMap_append]
  | none =>
    simp only
    cases hc : ctx st.2.clock with
    | some cerr => simp [tee, yieldsOf, h, List.filterMap_append]
    | none =>
      simp only
      cases hf : (prog.Filter (ctx (st.2.clock + 1))
          (setKey (clear st.2.item) "item" obj)).2 with
      | some ferr => simp [tee, yieldsOf, h, List.filterMap_append]
      | none =>
        simp only
        cases hk : (prog.Filter (ctx (st.2.clock + 1))
            (setKey (clear st.2.item) "item" obj)).1 with
        | false => simp [yieldsOf, h, List.filterMap_append]
        | true => simp [tee, yieldsOf, h, List.filterMap_append]

/-- The trace of `ToFiltered` records exactly the elements handed to the consumer. -/
theorem ToFiltered_trace_yields {U : Type} (src : Source U (Elem V)) (fuel : Nat) (u : U)
    (ctx : Context) (prog : CelProgram (GoMap (GoMap V))) (yield : σ → Elem V → σ × Bool)
    (s : σ) :
    (JsonMaps.ToFiltered (Source.seq src fuel u) ctx prog (σ × List (Elem V)) (tee yield)
      (s, [])).state.2 =
    yieldsOf (JsonMaps.ToFiltered (Source.seq src fuel u) ctx prog (σ × List (Elem V))
      (tee yield) (s, [])).info.2.trace := by
  simp only [JsonMaps.ToFiltered, Source.seq]
  refine Source.loop_inv src (JsonMaps.ToFiltered.body ctx prog (tee yield))
    (fun st : (σ × List (Elem V)) × FilterState V => st.1.2 = yieldsOf st.2.trace)
    (fun st : (σ × List (Elem V)) × FilterState V => st.1.2 = yieldsOf st.2.trace)
    (fun _ h => h) ?_ fuel u _ (by simp [yieldsOf])
  intro st p h
  have := ToFiltered_body_yields ctx prog yield st p h
  split <;> exact this

/-- C3 (amended): in every run of `JsonMaps.ToFiltered`, over every upstream,
context, program and consumer, an element yielded with a non-nil error is the last
event of the run (nothing is pulled from upstream, evaluated or yielded after it,
so it is the only such element), it carries a nil record, and it carries unmodified
the upstream error, the context's `ctx.Err()` or the error of `prog.Filter` of the
event right before it; the consumer is handed exactly the elements of the trace. -/
theorem ToFiltered_first_error_terminates {U : Type} (src : Source U (Elem V)) (fuel : Nat)
    (u : U) (ctx : Context) (prog : CelProgram (GoMap (GoMap V)))
    (yield : σ → Elem V → σ × Bool) (s : σ) :
    FirstErrorTerminates (Event.isCause prog)
      (JsonMaps.ToFiltered (Source.seq src fuel u) ctx prog (σ × List (Elem V)) (tee yield)
        (s, [])).info.2.trace ∧
    (JsonMaps.ToFiltered (Source.seq src fuel u) ctx prog (σ × List (Elem V)) (tee yield)
      (s, [])).state.2 =
    yieldsOf (JsonMaps.ToFiltered (Source.seq src fuel u) ctx prog (σ × List (Elem V))
      (tee yield) (s, [])).info.2.trace := by
  refine ⟨?_, ToFiltered_trace_yields src fuel u ctx prog yield s⟩
  simp only [JsonMaps.ToFiltered, Source.seq]
  refine Source.loop_inv src (JsonMaps.ToFiltered.body ctx prog (tee yield))
    (fun st : (σ × List (Elem V)) × FilterState V =>
      ∀ ev ∈ st.2.trace, Event.isErrYield ev = false)
    (fun st : (σ × List (Elem V)) × FilterState V =>
      FirstErrorTerminates (Event.isCause prog) st.2.trace) ?_ ?_ fuel u _ (by simp)
  · intro st h pre obj e rest htr
    have := h (Event.yield (obj, some e)) (by simp [htr])
    simp [Event.isErrYield] at this
  · intro st p h
    exact ToFiltered_body_firstError ctx prog (tee yield) st p h

/-- C3, a run with an error element: the upstream `[(r, nil), (r, err)]` with
an accepting program yields `(r, nil)` and then `(nil, err)`, which ends the run. -/
theorem ToFiltered_first_error_terminates_witness :
    (JsonMaps.ToFiltered (Source.seq (listSource (Elem Nat)) 5
        [(some [("a", 1)], none), (some [("a", 2)], some (GoError.other "decode"))])
      background (constProgram _ (GoAny.bool true)) (Unit × List (Elem Nat))
      (tee (fun s _ => (s, true))) ((), [])).state.2 =
      [(some [("a", 1)], none), (none, some (GoError.other "decode"))] ∧
    FirstErrorTerminates (Event.isCause (constProgram _ (GoAny.bool true)))
      (JsonMaps.ToFiltered (Source.seq (listSource (Elem Nat)) 5
        [(some [("a", 1)], none), (some [("a", 2)], some (GoError.other "decode"))])
      background (constProgram _ (GoAny.bool true)) (Unit × List (Elem Nat))
      (tee (fun s _ => (s, true))) ((), [])).info.2.trace :=
  ⟨by decide, (ToFiltered_first_error_terminates (listSource (Elem Nat)) 5
    [(some [("a", 1)], none), (some [("a", 2)], some (GoError.other "decode"))]
    background (constProgram _ (GoAny.bool true)) (fun s _ => (s, true)) ()).1⟩

/-- C3 as stated fails: with a cancelled context the error element carries
`ctx.Err()`, which is neither an upstream error (the upstream element has none)
nor an error of `prog.Filter` (which is not called). -/
theorem ToFiltered_error_cause_counterexample :
    (JsonMaps.ToFiltered (Source.seq (listSource (Elem Nat)) 5 [(some [("a", 1)], none)])
      (fun _ => some GoError.Canceled) (constProgram _ (GoAny.bool true))
      (List (Elem Nat)) collect []).info.2.trace =
      [Event.recv 0 (some [("a", 1)], none), Event.done GoError.Canceled,
        Event.yield (none, some GoError.Canceled)] ∧
    ¬ FirstErrorTerminates
      (Event.isUpstreamOrFilterError (constProgram _ (GoAny.bool true)))
      (JsonMaps.ToFiltered (Source.seq (listSource (Elem Nat)) 5 [(some [("a", 1)], none)])
        (fun _ => some GoError.Canceled) (constProgram _ (GoAny.bool true))
        (List (Elem Nat)) collect []).info.2.trace := by
  have htr : (JsonMaps.ToFiltered (Source.seq (listSource (Elem Nat)) 5
      [(some [("a", 1)], none)])
      (fun _ => some GoError.Canceled) (constProgram _ (GoAny.bool true))
      (List (Elem Nat)) collect []).info.2.trace =
      [Event.recv 0 (some [("a", 1)], none), Event.done GoError.Canceled,
        Event.yield (none, some GoError.Canceled)] := by decide
  refine ⟨htr, ?_⟩
  rw [htr]
  intro h
  obtain ⟨_, _, pre', c, hpre, hc⟩ :=
    h [Event.recv 0 (some [("a", 1)], none), Event.done GoError.Canceled] none
      GoError.Canceled [] rfl
  have hc' : c = Event.done GoError.Canceled := by
    rcases pre' with _ | ⟨a, _ | ⟨b, q⟩⟩ <;> simp at hpre
    exact hpre.2.symm
  subst hc'
  rcases hc with ⟨t, x, hx⟩ | ⟨item, keep, cs, hx, _⟩ <;> cases hx

/-- A block of events appended to a trace in which no element was received under a
signalled context. -/
theorem cancelled_append (ctx : Context) (old blk : List (Event V))
    (hold : ∀ t obj, Event.recv t (obj, none) ∈ old → ctx t = none)
    (hblk : ∀ q t obj rest e, blk = q ++ Event.recv t (obj, none) :: rest → ctx t = some e →
      rest = [Event.done e, Event.yield (none, some e)]) :
    ∀ pre t obj rest e, old ++ blk = pre ++ Event.recv t (obj, none) :: rest →
      ctx t = some e → rest = [Event.done e, Event.yield (none, some e)] := by
  intro pre t obj rest e h hctx
  obtain ⟨q, _, hb⟩ := append_split
    (fun ev => ∃ t obj e, ev = Event.recv t (obj, none) ∧ ctx t = some e)
    (by
      rintro y hy ⟨t', obj', e', rfl, hc⟩
      rw [hold t' obj' hy] at hc
      cases hc)
    ⟨t, obj, e, rfl, hctx⟩ h
  exact hblk q t obj rest e hb hctx

/-- One iteration of `ToFiltered`, for the cancellation check. -/
theorem ToFiltered_body_cancelled (ctx : Context) (prog : CelProgram (GoMap (GoMap V)))
    (yield : σ → Elem V → σ × Bool) (st : σ × FilterState V) (p : Elem V)
    (h : ∀ t obj, Event.recv t (obj, none) ∈ st.2.trace → ctx t = none) :
    if (JsonMaps.ToFiltered.body ctx prog yield st p).2 = true then
      ∀ t obj, Event.recv t (obj, none) ∈
        (JsonMaps.ToFiltered.body ctx prog yield st p).1.2.trace → ctx t = none
    else
      ∀ pre t obj rest e,
        (JsonMaps.ToFiltered.body ctx prog yield st p).1.2.trace =
          pre ++ Event.recv t (obj, none) :: rest →
        ctx t = some e → rest = [Event.done e, Event.yield (none, some e)] := by
  obtain ⟨obj, err⟩ := p
  simp only [JsonMaps.ToFiltered.body]
  cases err with
  | some e =>
    simp only [List.append_assoc, List.singleton_append, Bool.false_eq_true, if_false]
    apply cancelled_append ctx _ _ h
    intro q t obj' rest e' hq hctx
    rcases q with _ | ⟨a, _ | ⟨b, q⟩⟩ <;> simp at hq
  | none =>
    simp only
    cases hc : ctx st.2.clock with
    | some cerr =>
      simp only [List.append_assoc, List.singleton_append, Bool.false_eq_true, if_false]
      apply cancelled_append ctx _ _ h
      intro q t obj' rest e' hq hctx
      rcases q with _ | ⟨a, _ | ⟨b, _ | ⟨c, q⟩⟩⟩ <;> simp at hq
      obtain ⟨⟨rfl, rfl⟩, rfl⟩ := hq
      rw [hc] at hctx
      cases hctx
      rfl
    | none =>
      simp only
      have hin : ∀ (blk : List (Event V)),
          (∀ t obj', Event.recv t (obj', none) ∈ blk → t = st.2.clock) →
          ∀ t obj', Event.recv t (obj', none) ∈ st.2.trace ++ blk → ctx t = none := by
        intro blk hb t obj' hmem
        rcases List.mem_append.mp hmem with hm | hm
        · exact h t obj' hm
        · rw [hb t obj' hm]; exact hc
      cases hf : (prog.Filter (ctx (st.2.clock + 1))
          (setKey (clear st.2.item) "item" obj)).2 with
      | some ferr =>
        simp only [List.append_assoc, List.singleton_append, Bool.false_eq_true, if_false]
        apply cancelled_append ctx _ _ h
        intro q t obj' rest e' hq hctx
        rcases q with _ | ⟨a, _ | ⟨b, _ | ⟨c, q⟩⟩⟩ <;> simp at hq
        obtain ⟨⟨rfl, rfl⟩, rfl⟩ := hq
        rw [hc] at hctx
        cases hctx
      | none =>
        simp only
        cases hk : (prog.Filter (ctx (st.2.clock + 1))
            (setKey (clear st.2.item) "item" obj)).1 with
        | false =>
          simp only [Bool.not_false, if_true, List.append_assoc, List.singleton_append]
          apply hin
          intro t obj' hmem
          simp at hmem
          exact hmem.1
        | true =>
          simp only [Bool.not_true, Bool.false_eq_true, if_false, List.append_assoc,
            List.singleton_append]
          split
          · apply hin
            intro t obj' hmem
            simp at hmem
            exact hmem.1
          · apply cancelled_append ctx _ _ h
            intro q t obj' rest e' hq hctx
            rcases q with _ | ⟨a, _ | ⟨b, _ | ⟨c, q⟩⟩⟩ <;> simp at hq
            obtain ⟨⟨rfl, rfl⟩, rfl⟩ := hq
            rw [hc] at hctx
            cases hctx

/-- C4: when `JsonMaps.ToFiltered` receives an upstream element without error
while the context is already signalled (`ctx.Err() = e` at that moment `t`), the
rest of the run is the cancellation and the yield of `(nil, e)`: `prog.Filter` is
not called on the record, the record is not yielded, nothing more is received from
upstream, and `(nil, e)` is the last element the consumer is handed. -/
theorem ToFiltered_cancelled {U : Type} (src : Source U (Elem V)) (fuel : Nat) (u : U)
    (ctx : Context) (prog : CelProgram (GoMap (GoMap V))) (yield : σ → Elem V → σ × Bool)
    (s : σ) (pre rest : List (Event V)) (t : Nat) (obj : GoMap V) (e : GoError)
    (htr : (JsonMaps.ToFiltered (Source.seq src fuel u) ctx prog (σ × List (Elem V))
      (tee yield) (s, [])).info.2.trace = pre ++ Event.recv t (obj, none) :: rest)
    (hctx : ctx t = some e) :
    rest = [Event.done e, Event.yield (none, some e)] ∧
    (JsonMaps.ToFiltered (Source.seq src fuel u) ctx prog (σ × List (Elem V))
      (tee yield) (s, [])).state.2 = yieldsOf pre ++ [(none, some e)] := by
  have hrest : rest = [Event.done e, Event.yield (none, some e)] := by
    revert htr hctx
    simp only [JsonMaps.ToFiltered, Source.seq]
    intro htr hctx
    exact Source.loop_inv src (JsonMaps.ToFiltered.body ctx prog (tee yield))
      (fun st : (σ × List (Elem V)) × FilterState V =>
        ∀ t obj, Event.recv t (obj, none) ∈ st.2.trace → ctx t = none)
      (fun st : (σ × List (Elem V)) × FilterState V =>
        ∀ pre t obj rest e, st.2.trace = pre ++ Event.recv t (obj, none) :: rest →
          ctx t = some e → rest = [Event.done e, Event.yield (none, some e)])
      (by
        intro st h pre t obj rest e htr hctx
        rw [h t obj (by simp [htr])] at hctx
        cases hctx)
      (fun st p h => ToFiltered_body_cancelled ctx prog (tee yield) st p h)
      fuel u _ (by simp) pre t obj rest e htr hctx
  refine ⟨hrest, ?_⟩
  rw [ToFiltered_trace_yields src fuel u ctx prog yield s, htr, hrest]
  simp [yieldsOf, List.filterMap_append]

/-- C4, a run: the context is signalled when the second record arrives, after the
first one was accepted. -/
theorem ToFiltered_cancelled_witness :
    (JsonMaps.ToFiltered (Source.seq (listSource (Elem Nat)) 5
        [(some [("a", 1)], none), (some [("a", 2)], none), (some [("a", 3)], none)])
      (fun t => if t < 2 then none else some GoError.Canceled)
      (constProgram _ (GoAny.bool true)) (Unit × List (Elem Nat))
      (tee (fun s _ => (s, true))) ((), [])).state.2 =
      yieldsOf [Event.recv 0 (some [("a", 1)], none),
        Event.filter (binding (some [("a", 1)])) true none,
        Event.yield (some [("a", 1)], none)] ++ [(none, some GoError.Canceled)] :=
  (ToFiltered_cancelled (listSource (Elem Nat)) 5
    [(some [("a", 1)], none), (some [("a", 2)], none), (some [("a", 3)], none)]
    (fun t => if t < 2 then none else some GoError.Canceled)
    (constProgram _ (GoAny.bool true)) (fun s _ => (s, true)) ()
    [Event.recv 0 (some [("a", 1)], none),
      Event.filter (binding (some [("a", 1)])) true none,
      Event.yield (some [("a", 1)], none)]
    [Event.done GoError.Canceled, Event.yield (none, some GoError.Canceled)]
    2 (some [("a", 2)]) GoError.Canceled (by decide) (by decide)).2

/-- The binding of an iteration: `item` is cleared and holds the record under `"item"`. -/
theorem setKey_clear (item : GoMap (GoMap V)) (h : item.isSome = true) (obj : GoMap V) :
    setKey (clear item) "item" obj = binding obj := by
  cases item with
  | none => simp at h
  | some es => simp [clear, setKey, binding]

/-- One iteration of `ToFiltered` on a record, under a context that is not
cancelled and a `Filter` that does not fail on the record. -/
theorem ToFiltered_body_ok (ctx : Context) (prog : CelProgram (GoMap (GoMap V)))
    (yield : σ → Elem V → σ × Bool) (st : σ × FilterState V) (r : GoMap V)
    (hctx : ∀ t, ctx t = none) (hitem : st.2.item.isSome = true)
    (hF : (prog.Filter none (binding r)).2 = none) :
    (JsonMaps.ToFiltered.body ctx prog yield st (r, none)).1.2.item = binding r ∧
    (JsonMaps.ToFiltered.body ctx prog yield st (r, none)).1.1 =
      (if (prog.Filter none (binding r)).1 = true then (yield st.1 (r, none)).1 else st.1) ∧
    (JsonMaps.ToFiltered.body ctx prog yield st (r, none)).2 =
      (if (prog.Filter none (binding r)).1 = true then (yield st.1 (r, none)).2 else true) := by
  simp only [JsonMaps.ToFiltered.body, hctx, setKey_clear _ hitem, hF]
  cases (prog.Filter none (binding r)).1 <;> simp

/-- The loop of `ToFiltered` over a list of records, with the collecting consumer. -/
theorem ToFiltered_loop_collect (ctx : Context) (prog : CelProgram (GoMap (GoMap V)))
    (hctx : ∀ t, ctx t = none) :
    ∀ (l : List (GoMap V)) (n : Nat) (s : List (Elem V)) (f : FilterState V),
      f.item.isSome = true → (∀ r ∈ l, (prog.Filter none (binding r)).2 = none) →
      (ofList.loop (JsonMaps.ToFiltered.body ctx prog collect)
          (l.map (fun r => (r, none))) n (s, f)).state.1 =
        s ++ (l.filter (fun r => (prog.Filter none (binding r)).1)).map (fun r => (r, none)) ∧
      (ofList.loop (JsonMaps.ToFiltered.body ctx prog collect)
          (l.map (fun r => (r, none))) n (s, f)).info = n + l.length ∧
      (ofList.loop (JsonMaps.ToFiltered.body ctx prog collect)
          (l.map (fun r => (r, none))) n (s, f)).returned = true := by
  intro l
  induction l with
  | nil => intro n s f _ _; simp [ofList.loop]
  | cons r rs ih =>
    intro n s f hitem hF
    obtain ⟨h1, h2, h3⟩ := ToFiltered_body_ok ctx prog collect (s, f) r hctx hitem
      (hF r (List.mem_cons_self r rs))
    have hrs : ∀ r ∈ rs, (prog.Filter none (binding r)).2 = none :=
      fun r' hr' => hF r' (List.mem_cons_of_mem r hr')
    have hcont : (JsonMaps.ToFiltered.body ctx prog collect (s, f) (r, none)).2 = true := by
      rw [h3]; split <;> simp [collect]
    have hitem' : (JsonMaps.ToFiltered.body ctx prog collect (s, f) (r, none)).1.2.item.isSome
        = true := by rw [h1]; rfl
    simp only [List.map_cons, ofList.loop, hcont, if_true]
    obtain ⟨i1, i2, i3⟩ := ih (n + 1)
      (JsonMaps.ToFiltered.body ctx prog collect (s, f) (r, none)).1.1
      (JsonMaps.ToFiltered.body ctx prog collect (s, f) (r, none)).1.2 hitem' hrs
    refine ⟨?_, ?_, i3⟩
    · rw [i1, h2]
      by_cases hk : (prog.Filter none (binding r)).1 = true
      · simp [hk, collect, List.filter_cons]
      · simp [hk, List.filter_cons]
    · rw [i2]; simp; omega

/-- C1: for every finite upstream of `(record, nil)` pairs, a context that is never
cancelled, a program whose `Filter` fails on none of the records and a consumer
that pulls to exhaustion, `JsonMaps.ToFiltered` returns, having pulled the whole
upstream, and the consumer has been handed exactly the pairs `(r, nil)` of the
records `r` on which `Filter` returns true, in upstream order. -/
theorem ToFiltered_filters (l : List (GoMap V)) (ctx : Context)
    (prog : CelProgram (GoMap (GoMap V))) (hctx : ∀ t, ctx t = none)
    (hF : ∀ r ∈ l, (prog.Filter none (binding r)).2 = none) :
    (JsonMaps.ToFiltered (ofList (l.map (fun r => (r, none)))) ctx prog
        (List (Elem V)) collect []).state =
      (l.filter (fun r => (prog.Filter none (binding r)).1)).map (fun r => (r, none)) ∧
    (JsonMaps.ToFiltered (ofList (l.map (fun r => (r, none)))) ctx prog
        (List (Elem V)) collect []).info.1 = l.length ∧
    (JsonMaps.ToFiltered (ofList (l.map (fun r => (r, none)))) ctx prog
        (List (Elem V)) collect []).returned = true := by
  have h := ToFiltered_loop_collect ctx prog hctx l 0 [] ⟨some [], 0, []⟩ rfl hF
  simpa [JsonMaps.ToFiltered, ofList] using h

/-- C1, the scenario of the specification: the records `a = 1, 2, 3` under the
expression `item.a > 1` give the records `a = 2, 3`. -/
theorem ToFiltered_filters_witness :
    (JsonMaps.ToFiltered (ofList ([some [("a", 1)], some [("a", 2)], some [("a", 3)]].map
        (fun r => (r, none)))) background sampleProgram (List (Elem Nat)) collect []).state =
      [(some [("a", 2)], none), (some [("a", 3)], none)] :=
  (ToFiltered_filters [some [("a", 1)], some [("a", 2)], some [("a", 3)]] background
    sampleProgram (fun _ => rfl) (by decide)).1

/-- One iteration of `ToFiltered` under a program that rejects every record hands
the consumer no element without error. -/
theorem ToFiltered_body_rejecting (ctx : Context) (prog : CelProgram (GoMap (GoMap V)))
    (hF : ∀ c item, prog.Filter c item = (false, none))
    (yield : σ → Elem V → σ × Bool) (st : (σ × List (Elem V)) × FilterState V) (p : Elem V)
    (h : ∀ q ∈ st.1.2, q.2 ≠ none) :
    ∀ q ∈ (JsonMaps.ToFiltered.body ctx prog (tee yield) st p).1.1.2, q.2 ≠ none := by
  obtain ⟨obj, err⟩ := p
  simp only [JsonMaps.ToFiltered.body, hF]
  cases err with
  | some e =>
    intro q hq
    simp only [tee, List.mem_append, List.mem_singleton] at hq
    rcases hq with hq | rfl
    · exact h q hq
    · simp
  | none =>
    simp only
    cases hc : ctx st.2.clock with
    | some cerr =>
      intro q hq
      simp only [tee, List.mem_append, List.mem_singleton] at hq
      rcases hq with hq | rfl
      · exact h q hq
      · simp
    | none => simpa using h

/-- One iteration of `ToFiltered` under a program that rejects every record, with
`WriteAll` as the consumer, leaves the writer as it is. -/
theorem ToFiltered_body_rejecting_writer {W : Type} (ctx : Context)
    (prog : CelProgram (GoMap (GoMap V))) (hF : ∀ c item, prog.Filter c item = (false, none))
    (enc : EncoderOps W V) (st : (W × Option GoError) × FilterState V) (p : Elem V) :
    (JsonMaps.ToFiltered.body ctx prog (JsonWriter.WriteAll.body enc) st p).1.1.1 = st.1.1 := by
  obtain ⟨obj, err⟩ := p
  simp only [JsonMaps.ToFiltered.body, hF]
  cases err with
  | some e => simp [JsonWriter.WriteAll.body]
  | none =>
    simp only
    cases hc : ctx st.2.clock with
    | some cerr => simp [JsonWriter.WriteAll.body]
    | none => simp

/-- C8: for every upstream (with or without decode errors), every context and every
consumer, if `prog.Filter` returns `(false, nil)` on every input, then
`JsonMaps.ToFiltered` hands the consumer no element with a nil error, and
`JsonWriter.WriteAll` driven by it leaves the fresh buffered writer untouched:
nothing is written to the sink and nothing is buffered. -/
theorem ToFiltered_rejecting {U : Type} (src : Source U (Elem V)) (fuel : Nat) (u : U)
    (ctx : Context) (prog : CelProgram (GoMap (GoMap V))) (yield : σ → Elem V → σ × Bool)
    (s : σ) (marshal : Marshal V) (fail : SinkFail)
    (hF : ∀ c item, prog.Filter c item = (false, none)) :
    (∀ q ∈ (JsonMaps.ToFiltered (Source.seq src fuel u) ctx prog (σ × List (Elem V))
      (tee yield) (s, [])).state.2, q.2 ≠ none) ∧
    (JsonWriter.WriteAll (jsonEncoder marshal fail) BufWriter.new ctx
      (JsonMaps.ToFiltered (Source.seq src fuel u) ctx prog)).writer = BufWriter.new := by
  constructor
  · simp only [JsonMaps.ToFiltered, Source.seq]
    exact Source.loop_inv src (JsonMaps.ToFiltered.body ctx prog (tee yield))
      (fun st : (σ × List (Elem V)) × FilterState V => ∀ q ∈ st.1.2, q.2 ≠ none)
      (fun st : (σ × List (Elem V)) × FilterState V => ∀ q ∈ st.1.2, q.2 ≠ none)
      (fun _ h => h)
      (fun st p h => by
        have := ToFiltered_body_rejecting ctx prog hF yield st p h
        split <;> exact this)
      fuel u _ (by simp)
  · have hw := Source.loop_inv src
      (JsonMaps.ToFiltered.body ctx prog (JsonWriter.WriteAll.body (jsonEncoder marshal fail)))
      (fun st : (BufWriter × Option GoError) × FilterState V => st.1.1 = BufWriter.new)
      (fun st : (BufWriter × Option GoError) × FilterState V => st.1.1 = BufWriter.new)
      (fun _ h => h)
      (fun st p h => by
        have := ToFiltered_body_rejecting_writer ctx prog hF (jsonEncoder marshal fail) st p
        split <;> exact this.trans h)
      fuel u ((BufWriter.new, none), ⟨some [], 0, []⟩) rfl
    simp only [JsonWriter.WriteAll, JsonMaps.ToFiltered, Source.seq]
    split
    · split
      · exact hw
      · simp only [hw]
        rfl
    · exact hw

/-- C8, a run: three records and a decode error under the expression `false`. -/
theorem ToFiltered_rejecting_witness :
    (∀ q ∈ (JsonMaps.ToFiltered (Source.seq (listSource (Elem Nat)) 9
        [(some [("a", 1)], none), (some [("a", 2)], none),
          (some [], some (GoError.other "decode"))])
      background (constProgram _ (GoAny.bool false)) (Unit × List (Elem Nat))
      (tee (fun s _ => (s, true))) ((), [])).state.2, q.2 ≠ none) ∧
    (JsonWriter.WriteAll (jsonEncoder sampleMarshal neverFails) BufWriter.new background
      (JsonMaps.ToFiltered (Source.seq (listSource (Elem Nat)) 9
        [(some [("a", 1)], none), (some [("a", 2)], none),
          (some [], some (GoError.other "decode"))])
      background (constProgram _ (GoAny.bool false)))).writer = BufWriter.new :=
  ToFiltered_rejecting (listSource (Elem Nat)) 9
    [(some [("a", 1)], none), (some [("a", 2)], none),
      (some [], some (GoError.other "decode"))]
    background (constProgram _ (GoAny.bool false)) (fun s _ => (s, true)) ()
    sampleMarshal neverFails (fun _ _ => rfl)

end FilterStage

section Encoder

variable {W V : Type}

/-- The loop of `WriteAll` up to the first element that carries an error. -/
theorem WriteAll_loop_first_error (enc : EncoderOps W V) (x : GoMap V) (e : GoError)
    (post : List (Elem V)) :
    ∀ (pre : List (Elem V)) (n : Nat) (w w' : W), (∀ p ∈ pre, p.2 = none) →
      encodeAll enc w (pre.map Prod.fst) = some w' →
      ofList.loop (JsonWriter.WriteAll.body enc) (pre ++ (x, some e) :: post) n (w, none) =
        ⟨(w', some e), n + pre.length + 1, true⟩ := by
  intro pre
  induction pre with
  | nil =>
    intro n w w' _ henc
    simp only [encodeAll, List.map_nil, Option.some.injEq] at henc
    simp [ofList.loop, JsonWriter.WriteAll.body, henc]
  | cons p ps ih =>
    intro n w w' hpre henc
    obtain ⟨r, err⟩ := p
    have herr : err = none := hpre (r, err) (List.mem_cons_self _ _)
    subst herr
    simp only [List.map_cons, encodeAll] at henc
    cases he : (enc.Encode w r).2 with
    | some e' => simp [he] at henc
    | none =>
      simp only [he] at henc
      have := ih (n + 1) (enc.Encode w r).1 w'
        (fun q hq => hpre q (List.mem_cons_of_mem _ hq)) henc
      simp only [List.cons_append, ofList.loop, JsonWriter.WriteAll.body, he, if_true]
      refine this.trans ?_
      simp only [List.length_cons, Ran.mk.injEq, and_true, true_and]
      omega

/-- C6: for every sequence whose first element carrying an error `e` is at position
`k` (the `k` elements before it carry none, and the `Encode` of each of them
succeeds), `JsonWriter.WriteAll` returns exactly `e`, its writer is the one after
the `Encode` of the `k` preceding records (nothing is encoded for the error
element, nothing is flushed), and the sequence has handed out `k + 1` elements:
none after position `k`. -/
theorem WriteAll_first_error (enc : EncoderOps W V) (w w' : W) (ctx : Context)
    (pre post : List (Elem V)) (x : GoMap V) (e : GoError)
    (hpre : ∀ p ∈ pre, p.2 = none)
    (henc : encodeAll enc w (pre.map Prod.fst) = some w') :
    (JsonWriter.WriteAll enc w ctx (ofList (pre ++ (x, some e) :: post))).ret = some (some e) ∧
    (JsonWriter.WriteAll enc w ctx (ofList (pre ++ (x, some e) :: post))).writer = w' ∧
    (JsonWriter.WriteAll enc w ctx (ofList (pre ++ (x, some e) :: post))).info =
      pre.length + 1 := by
  have h := WriteAll_loop_first_error enc x e post pre 0 w w' hpre henc
  simp [JsonWriter.WriteAll, ofList, h]

/-- C6, a run: two records, an error element, one more record. -/
theorem WriteAll_first_error_witness :
    (JsonWriter.WriteAll (jsonEncoder sampleMarshal neverFails) BufWriter.new background
      (ofList ([(some [("a", 1)], none), (some [("a", 2)], none)] ++
        (none, some (GoError.other "decode")) :: [(some [("a", 3)], none)]))).ret =
      some (some (GoError.other "decode")) ∧
    (JsonWriter.WriteAll (jsonEncoder sampleMarshal neverFails) BufWriter.new background
      (ofList ([(some [("a", 1)], none), (some [("a", 2)], none)] ++
        (none, some (GoError.other "decode")) :: [(some [("a", 3)], none)]))).writer =
      ⟨[], documents [[123, 34, 97, 34, 58, 49, 125], [123, 34, 97, 34, 58, 50, 125]], none⟩ ∧
    (JsonWriter.WriteAll (jsonEncoder sampleMarshal neverFails) BufWriter.new background
      (ofList ([(some [("a", 1)], none), (some [("a", 2)], none)] ++
        (none, some (GoError.other "decode")) :: [(some [("a", 3)], none)]))).info = 2 + 1 :=
  WriteAll_first_error (jsonEncoder sampleMarshal neverFails) BufWriter.new
    ⟨[], documents [[123, 34, 97, 34, 58, 49, 125], [123, 34, 97, 34, 58, 50, 125]], none⟩
    background [(some [("a", 1)], none), (some [("a", 2)], none)] [(some [("a", 3)], none)]
    none (GoError.other "decode") (by decide) (by decide)

end Encoder

section Decoding

variable {V σ : Type}

/-- The invariant rule for the loop of `JsonReader.ToMaps`. -/
theorem ToMaps_loop_inv {S : Type} (dec : Decoder S V) (yield : σ → Elem V → σ × Bool)
    (Inv Post : σ → Prop) (hpost : ∀ s, Inv s → Post s)
    (hstep : ∀ s p, Inv s →
      if (yield s p).2 = true then Inv (yield s p).1 else Post (yield s p).1) :
    ∀ (fuel : Nat) (r : S) (buf : GoMap V) (s : σ), Inv s →
      Post (JsonReader.ToMaps.loop dec yield fuel r buf s).state := by
  intro fuel
  induction fuel with
  | zero => intro r buf s h; exact hpost s h
  | succ n ih =>
    intro r buf s h
    simp only [JsonReader.ToMaps.loop]
    split
    · exact hpost s h
    · have hs := hstep s ((dec.Decode r (clear buf)).2.1, (dec.Decode r (clear buf)).2.2) h
      by_cases hy : (yield s ((dec.Decode r (clear buf)).2.1,
          (dec.Decode r (clear buf)).2.2)).2 = true
      · simp only [hy, if_true] at hs
        simp only [hy, Bool.not_true, Bool.false_eq_true, if_false]
        exact ih _ _ _ hs
      · simp only [hy, if_false] at hs
        simp only [hy, Bool.not_false, if_true]
        exact hs

/-- A recording consumer that stops at an element carrying an error keeps its
record free of errors while it asks for more, and error-terminating when it stops. -/
theorem tee_errorTerminating (yield : σ → Elem V → σ × Bool)
    (hstop : ∀ s p, p.2 ≠ none → (yield s p).2 = false)
    (st : σ × List (Elem V)) (p : Elem V) (h : ∀ q ∈ st.2, q.2 = none) :
    if (tee yield st p).2 = true then ∀ q ∈ (tee yield st p).1.2, q.2 = none
    else ErrorTerminating (tee yield st p).1.2 := by
  split
  · rename_i hy
    intro q hq
    simp only [tee, List.mem_append, List.mem_singleton] at hq hy
    rcases hq with hq | rfl
    · exact h q hq
    · by_contra hne
      rw [hstop st.1 q hne] at hy
      cases hy
  · intro pre q rest hlog hq
    simp only [tee] at hlog
    obtain ⟨k, _, hk⟩ := append_split (fun q : Elem V => q.2 ≠ none)
      (fun y hy => by simp [h y hy]) hq hlog
    rcases k with _ | ⟨a, k⟩ <;> simp at hk
    exact hk.2

/-- C9 (amended): for every input and every consumer that stops pulling at an
element carrying a non-nil error, once `JsonReader.ToMaps` or `JsonLines.ToMap` has
yielded such an element it yields no further element. -/
theorem decoders_error_terminating {S U : Type} (dec : Decoder S V) (r : S) (fuel : Nat)
    (unmarshal : Unmarshal V) (lines : Source U (List Nat)) (fuel' : Nat) (u : U)
    (yield : σ → Elem V → σ × Bool) (s : σ)
    (hstop : ∀ s p, p.2 ≠ none → (yield s p).2 = false) :
    ErrorTerminating
      (JsonReader.ToMaps dec r fuel (σ × List (Elem V)) (tee yield) (s, [])).state.2 ∧
    ErrorTerminating
      (JsonLines.ToMap unmarshal (Source.seq lines fuel' u) (σ × List (Elem V)) (tee yield)
        (s, [])).state.2 := by
  have hpost : ∀ log : List (Elem V), (∀ q ∈ log, q.2 = none) → ErrorTerminating log := by
    intro log h pre q rest hlog hq
    exact absurd (h q (by simp [hlog])) hq
  constructor
  · simp only [JsonReader.ToMaps]
    exact ToMaps_loop_inv dec (tee yield)
      (fun st : σ × List (Elem V) => ∀ q ∈ st.2, q.2 = none)
      (fun st : σ × List (Elem V) => ErrorTerminating st.2)
      (fun st h => hpost st.2 h)
      (fun st p h => tee_errorTerminating yield hstop st p h)
      fuel r _ _ (by simp)
  · simp only [JsonLines.ToMap, Source.seq]
    exact Source.loop_inv lines (JsonLines.ToMap.body unmarshal (tee yield))
      (fun st : (σ × List (Elem V)) × GoMap V => ∀ q ∈ st.1.2, q.2 = none)
      (fun st : (σ × List (Elem V)) × GoMap V => ErrorTerminating st.1.2)
      (fun st h => hpost st.1.2 h)
      (fun st line h => by
        have := tee_errorTerminating yield hstop st.1
          ((unmarshal line (clear st.2)).1, (unmarshal line (clear st.2)).2) h
        simp only [JsonLines.ToMap.body]
        by_cases hy : (tee yield st.1
            ((unmarshal line (clear st.2)).1, (unmarshal line (clear st.2)).2)).2 = true
        · simp only [hy, if_true] at this
          simpa [hy] using this
        · simp only [hy, if_false] at this
          simpa [hy] using this)
      fuel' u _ (by simp)

/-- C9, a run: a consumer that stops at the first error is handed the error of the
second chunk and nothing after it. -/
theorem decoders_error_terminating_witness :
    (JsonReader.ToMaps (streamDecoder Nat)
        [Chunk.object [("a", 1)], Chunk.nonObject (GoError.other "cannot unmarshal"),
          Chunk.object [("a", 3)]] 9
        (Unit × List (Elem Nat)) (tee (fun s p => (s, p.2.isNone))) ((), [])).state.2 =
      [(some [("a", 1)], none), (some [], some (GoError.other "cannot unmarshal"))] ∧
    ErrorTerminating
      (JsonReader.ToMaps (streamDecoder Nat)
        [Chunk.object [("a", 1)], Chunk.nonObject (GoError.other "cannot unmarshal"),
          Chunk.object [("a", 3)]] 9
        (Unit × List (Elem Nat)) (tee (fun s p => (s, p.2.isNone))) ((), [])).state.2 ∧
    ErrorTerminating
      (JsonLines.ToMap sampleUnmarshal
        (Source.seq (listSource (List Nat)) 9 [[120], [123, 125]])
        (Unit × List (Elem Nat)) (tee (fun s p => (s, p.2.isNone))) ((), [])).state.2 :=
  ⟨by decide,
    decoders_error_terminating (streamDecoder Nat)
      [Chunk.object [("a", 1)], Chunk.nonObject (GoError.other "cannot unmarshal"),
        Chunk.object [("a", 3)]] 9 sampleUnmarshal (listSource (List Nat)) 9
      [[120], [123, 125]] (fun s p => (s, p.2.isNone)) ()
      (fun s p hp => by cases h : p.2 <;> simp_all)⟩

/-- C9 as stated fails: a consumer that keeps pulling after an error is handed
further elements, by `JsonReader.ToMaps` (a number, then an object) and by
`JsonLines.ToMap` (a broken line, then the line `{}`). -/
theorem decoders_keep_yielding_counterexample :
    ¬ ErrorTerminating
      (JsonReader.ToMaps (streamDecoder Nat)
        [Chunk.nonObject (GoError.other "cannot unmarshal"), Chunk.object [("a", 1)]] 9
        (Unit × List (Elem Nat)) (tee (fun s _ => (s, true))) ((), [])).state.2 ∧
    ¬ ErrorTerminating
      (JsonLines.ToMap sampleUnmarshal
        (Source.seq (listSource (List Nat)) 9 [[120], [123, 125]])
        (Unit × List (Elem Nat)) (tee (fun s _ => (s, true))) ((), [])).state.2 := by
  have h1 : (JsonReader.ToMaps (streamDecoder Nat)
        [Chunk.nonObject (GoError.other "cannot unmarshal"), Chunk.object [("a", 1)]] 9
        (Unit × List (Elem Nat)) (tee (fun s _ => (s, true))) ((), [])).state.2 =
      [(some [], some (GoError.other "cannot unmarshal")), (some [("a", 1)], none)] := by
    decide
  have h2 : (JsonLines.ToMap sampleUnmarshal
        (Source.seq (listSource (List Nat)) 9 [[120], [123, 125]])
        (Unit × List (Elem Nat)) (tee (fun s _ => (s, true))) ((), [])).state.2 =
      [(some [], some (GoError.other "invalid character")), (some [], none)] := by
    decide
  rw [h1, h2]
  constructor
  · intro h
    have := h [] _ _ rfl (by simp)
    cases this
  · intro h
    have := h [] _ _ rfl (by simp)
    cases this

/-- Decoding an object into the cleared `buf` gives the record of the object. -/
theorem streamDecode_object_clear (m : List (String × V)) (rest : List (Chunk V))
    (b : GoMap V) :
    streamDecode (Chunk.object m :: rest) (clear b) = (rest, recordOf m, none) := by
  cases b <;> simp [clear, streamDecode, recordOf, decodeInto]

/-- Whitespace before a value does not change an iteration of `ToMaps`. -/
theorem ToMaps_loop_space (yield : σ → Elem V → σ × Bool) (fuel : Nat)
    (rest : List (Chunk V)) (buf : GoMap V) (s : σ) :
    JsonReader.ToMaps.loop (streamDecoder V) yield (fuel + 1) (Chunk.space :: rest) buf s =
      JsonReader.ToMaps.loop (streamDecoder V) yield (fuel + 1) rest buf s := by
  simp only [JsonReader.ToMaps.loop, streamDecoder, streamDecode]

/-- One iteration of `ToMaps` at an object that decodes. -/
theorem ToMaps_loop_object (yield : σ → Elem V → σ × Bool) (fuel : Nat)
    (m : List (String × V)) (rest : List (Chunk V)) (buf : GoMap V) (s : σ) :
    JsonReader.ToMaps.loop (streamDecoder V) yield (fuel + 1) (Chunk.object m :: rest) buf s =
      if (yield s (recordOf m, none)).2 = true then
        JsonReader.ToMaps.loop (streamDecoder V) yield fuel rest (recordOf m)
          (yield s (recordOf m, none)).1
      else ⟨(yield s (recordOf m, none)).1, rest, true⟩ := by
  simp only [JsonReader.ToMaps.loop, streamDecoder, streamDecode_object_clear]
  cases (yield s (recordOf m, none)).2 <;> simp

/-- One iteration of `ToMaps` at the end of the stream. -/
theorem ToMaps_loop_end (yield : σ → Elem V → σ × Bool) (fuel : Nat) (buf : GoMap V)
    (s : σ) :
    JsonReader.ToMaps.loop (streamDecoder V) yield (fuel + 1) [] buf s = ⟨s, [], true⟩ := by
  simp [JsonReader.ToMaps.loop, streamDecoder, streamDecode]

/-- Over a stream of objects that decode, `ToMaps` hands any consumer what the
iterator over the list of their records hands it, and returns. -/
theorem ToMaps_loop_decodable (yield : σ → Elem V → σ × Bool) :
    ∀ (cs : List (Chunk V)) (fuel n : Nat) (buf : GoMap V) (s : σ),
      decodable cs = true → (objectsOf cs).length < fuel →
      (JsonReader.ToMaps.loop (streamDecoder V) yield fuel cs buf s).state =
        (ofList.loop yield ((objectsOf cs).map (fun m => (recordOf m, none))) n s).state ∧
      (JsonReader.ToMaps.loop (streamDecoder V) yield fuel cs buf s).returned = true := by
  intro cs
  induction cs with
  | nil =>
    intro fuel n buf s _ hfuel
    cases fuel with
    | zero => simp [objectsOf] at hfuel
    | succ k => simp [ToMaps_loop_end, objectsOf, ofList.loop]
  | cons c rest ih =>
    intro fuel n buf s hwf hfuel
    cases fuel with
    | zero => omega
    | succ k =>
      cases c with
      | space =>
        rw [ToMaps_loop_space]
        exact ih (k + 1) n buf s (by simpa [decodable] using hwf)
          (by simpa [objectsOf] using hfuel)
      | object m =>
        rw [ToMaps_loop_object]
        simp only [objectsOf, List.map_cons, ofList.loop]
        by_cases hy : (yield s (recordOf m, none)).2 = true
        · simp only [hy, if_true]
          exact ih k (n + 1) (recordOf m) _ (by simpa [decodable] using hwf)
            (by simp [objectsOf] at hfuel; omega)
        · simp [hy]
      | objectOutOfRange m e => simp [decodable] at hwf
      | objectTooDeep e => simp [decodable] at hwf
      | null => simp [decodable] at hwf
      | nonObject e => simp [decodable] at hwf
      | malformed e => simp [decodable] at hwf

/-- The loop of `ToMaps` over a stream of objects that decode, with the collecting
consumer. -/
theorem ToMaps_loop_collect :
    ∀ (cs : List (Chunk V)) (fuel : Nat) (buf : GoMap V) (s : List (Elem V)),
      decodable cs = true → (objectsOf cs).length < fuel →
      JsonReader.ToMaps.loop (streamDecoder V) collect fuel cs buf s =
        ⟨s ++ (objectsOf cs).map (fun m => (recordOf m, none)), [], true⟩ := by
  intro cs
  induction cs with
  | nil =>
    intro fuel buf s _ hfuel
    cases fuel with
    | zero => simp [objectsOf] at hfuel
    | succ k => simp [ToMaps_loop_end, objectsOf]
  | cons c rest ih =>
    intro fuel buf s hwf hfuel
    cases fuel with
    | zero => omega
    | succ k =>
      cases c with
      | space =>
        rw [ToMaps_loop_space]
        exact ih (k + 1) buf s (by simpa [decodable] using hwf)
          (by simpa [objectsOf] using hfuel)
      | object m =>
        rw [ToMaps_loop_object]
        simp only [collect, if_true]
        rw [ih k (recordOf m) _ (by simpa [decodable] using hwf)
          (by simp [objectsOf] at hfuel; omega)]
        simp [objectsOf]
      | objectOutOfRange m e => simp [decodable] at hwf
      | objectTooDeep e => simp [decodable] at hwf
      | null => simp [decodable] at hwf
      | nonObject e => simp [decodable] at hwf
      | malformed e => simp [decodable] at hwf

/-- C10 (amended): for every byte stream of `N ≥ 0` well-formed JSON objects with
optional separating whitespace, each of which the decoder stores in a map without
error, `JsonReader.ToMaps` (given fuel for `N + 1` iterations, and a consumer that
pulls to exhaustion) yields exactly `N` elements, the records of the objects, each
with a nil error and in input order, and then returns at the end of the stream,
which it has read whole, without an element for the end-of-stream. -/
theorem ToMaps_decodable (cs : List (Chunk V)) (fuel : Nat) (hdec : decodable cs = true)
    (hfuel : (objectsOf cs).length < fuel) :
    (JsonReader.ToMaps (streamDecoder V) cs fuel (List (Elem V)) collect []).state =
      (objectsOf cs).map (fun m => (recordOf m, none)) ∧
    (JsonReader.ToMaps (streamDecoder V) cs fuel (List (Elem V)) collect []).info = [] ∧
    (JsonReader.ToMaps (streamDecoder V) cs fuel (List (Elem V)) collect []).returned = true := by
  simp [JsonReader.ToMaps, ToMaps_loop_collect cs fuel (some []) [] hdec hfuel]

/-- C10, two runs: a stream of three objects with whitespace (the second one has a
key twice, and decodes to the later value), and the empty stream. -/
theorem ToMaps_decodable_witness :
    ((JsonReader.ToMaps (streamDecoder Nat)
        [Chunk.object [("a", 1)], Chunk.space, Chunk.object [("a", 7), ("a", 2)],
          Chunk.space, Chunk.object [("a", 3)], Chunk.space] 4 (List (Elem Nat))
        collect []).state =
      [(some [("a", 1)], none), (some [("a", 2)], none), (some [("a", 3)], none)]) ∧
    ((JsonReader.ToMaps (streamDecoder Nat) [] 1 (List (Elem Nat)) collect []).state = [] ∧
      (JsonReader.ToMaps (streamDecoder Nat) [] 1 (List (Elem Nat)) collect []).info = [] ∧
      (JsonReader.ToMaps (streamDecoder Nat) [] 1 (List (Elem Nat)) collect []).returned
        = true) :=
  ⟨(ToMaps_decodable [Chunk.object [("a", 1)], Chunk.space,
      Chunk.object [("a", 7), ("a", 2)], Chunk.space, Chunk.object [("a", 3)],
      Chunk.space] 4 (by decide) (by decide)).1,
    ToMaps_decodable ([] : List (Chunk Nat)) 1 (by decide) (by decide)⟩

/-- C10 as stated fails: the stream that holds the one well-formed JSON object
`{"a":1e999}` makes `JsonReader.ToMaps` yield an element that carries the
decoder's `UnmarshalTypeError`, not a nil error. -/
theorem ToMaps_wellFormed_counterexample :
    wellFormed [Chunk.objectOutOfRange [("a", (none : Option Nat))]
      (GoError.other "cannot unmarshal number 1e999")] = true ∧
    (JsonReader.ToMaps (streamDecoder (Option Nat))
      [Chunk.objectOutOfRange [("a", none)] (GoError.other "cannot unmarshal number 1e999")]
      9 (List (Elem (Option Nat))) collect []).state =
      [(some [("a", none)], some (GoError.other "cannot unmarshal number 1e999"))] ∧
    ¬ (∀ p ∈ (JsonReader.ToMaps (streamDecoder (Option Nat))
      [Chunk.objectOutOfRange [("a", none)] (GoError.other "cannot unmarshal number 1e999")]
      9 (List (Elem (Option Nat))) collect []).state, p.2 = none) := by
  have h : (JsonReader.ToMaps (streamDecoder (Option Nat))
      [Chunk.objectOutOfRange [("a", none)] (GoError.other "cannot unmarshal number 1e999")]
      9 (List (Elem (Option Nat))) collect []).state =
      [(some [("a", none)], some (GoError.other "cannot unmarshal number 1e999"))] := by
    decide
  refine ⟨by decide, h, ?_⟩
  rw [h]
  intro hall
  have := hall _ (List.mem_singleton.mpr rfl)
  cases this

end Decoding

section Pipeline

variable {V : Type}

/-- The `Flush` over a sink that never fails moves the buffer to the sink. -/
theorem Flush_neverFails (w : BufWriter) (h : w.err = none) :
    BufWriter.Flush neverFails w = (⟨w.sink ++ w.buf, [], none⟩, none) := by
  obtain ⟨sink, buf, err⟩ := w
  simp only at h
  subst h
  simp only [BufWriter.Flush, neverFails]
  split
  · rename_i hlen
    have : buf = [] := List.length_eq_zero.mp hlen
    simp [this]
  · rfl

/-- The `Write` over a sink that never fails succeeds and takes all of `p`, in order,
into the sink and the buffer. -/
theorem Write_neverFails (w : BufWriter) (p : List Nat) (h : w.err = none) :
    (BufWriter.Write neverFails w p).2 = none ∧
    (BufWriter.Write neverFails w p).1.err = none ∧
    (BufWriter.Write neverFails w p).1.sink ++ (BufWriter.Write neverFails w p).1.buf =
      w.sink ++ w.buf ++ p := by
  obtain ⟨sink, buf, err⟩ := w
  simp only at h
  subst h
  simp only [BufWriter.Write]
  split
  · simp
  · split
    · rename_i hlen
      have : buf = [] := List.length_eq_zero.mp hlen
      simp [BufWriter.direct, neverFails, this]
    · rw [Flush_neverFails _ rfl]
      simp only
      split
      · simp
      · simp [BufWriter.direct, neverFails]

/-- The `Encode` of a record that marshals, over a sink that never fails. -/
theorem jsonEncode_neverFails (marshal : Marshal V) (w : BufWriter) (v : GoMap V)
    (h : w.err = none) (hm : (marshal v).2 = none) :
    (jsonEncode marshal neverFails w v).2 = none ∧
    (jsonEncode marshal neverFails w v).1.err = none ∧
    (jsonEncode marshal neverFails w v).1.sink ++ (jsonEncode marshal neverFails w v).1.buf =
      w.sink ++ w.buf ++ ((marshal v).1 ++ [10]) := by
  simp only [jsonEncode, hm]
  exact Write_neverFails w _ h

/-- The loops of `ToFiltered` and `WriteAll` over a list of records, under a
program that accepts every record. -/
theorem pipeline_loop_tautology (ctx : Context) (prog : CelProgram (GoMap (GoMap V)))
    (marshal : Marshal V) (hctx : ∀ t, ctx t = none)
    (hF : ∀ c item, prog.Filter c item = (true, none)) :
    ∀ (rs : List (GoMap V)) (n : Nat) (w : BufWriter) (f : FilterState V),
      w.err = none → f.item.isSome = true → (∀ r ∈ rs, (marshal r).2 = none) →
      (ofList.loop
        (JsonMaps.ToFiltered.body ctx prog
          (JsonWriter.WriteAll.body (jsonEncoder marshal neverFails)))
        (rs.map (fun r => (r, none))) n ((w, none), f)).state.1.2 = none ∧
      (ofList.loop
        (JsonMaps.ToFiltered.body ctx prog
          (JsonWriter.WriteAll.body (jsonEncoder marshal neverFails)))
        (rs.map (fun r => (r, none))) n ((w, none), f)).state.1.1.err = none ∧
      (ofList.loop
        (JsonMaps.ToFiltered.body ctx prog
          (JsonWriter.WriteAll.body (jsonEncoder marshal neverFails)))
        (rs.map (fun r => (r, none))) n ((w, none), f)).state.1.1.sink ++
      (ofList.loop
        (JsonMaps.ToFiltered.body ctx prog
          (JsonWriter.WriteAll.body (jsonEncoder marshal neverFails)))
        (rs.map (fun r => (r, none))) n ((w, none), f)).state.1.1.buf =
        w.sink ++ w.buf ++ documents (rs.map (fun r => (marshal r).1)) := by
  intro rs
  induction rs with
  | nil => intro n w f hw _ _; simp [ofList.loop, documents, hw]
  | cons r rs ih =>
    intro n w f hw hitem hm
    obtain ⟨b1, b2, b3⟩ := ToFiltered_body_ok ctx prog
      (JsonWriter.WriteAll.body (jsonEncoder marshal neverFails)) ((w, none), f) r
      hctx hitem (by rw [hF])
    obtain ⟨e1, e2, e3⟩ := jsonEncode_neverFails marshal w r hw
      (hm r (List.mem_cons_self r rs))
    have hy : JsonWriter.WriteAll.body (jsonEncoder marshal neverFails) (w, none)
        (r, none) = ((( jsonEncode marshal neverFails w r).1, none), true) := by
      simp [JsonWriter.WriteAll.body, jsonEncoder, e1]
    simp only [hF, if_true, hy] at b2 b3
    have hitem' : (JsonMaps.ToFiltered.body ctx prog
        (JsonWriter.WriteAll.body (jsonEncoder marshal neverFails)) ((w, none), f)
        (r, none)).1.2.item.isSome = true := by rw [b1]; rfl
    have hst : (JsonMaps.ToFiltered.body ctx prog
        (JsonWriter.WriteAll.body (jsonEncoder marshal neverFails)) ((w, none), f)
        (r, none)).1 = (((jsonEncode marshal neverFails w r).1, none),
        (JsonMaps.ToFiltered.body ctx prog
        (JsonWriter.WriteAll.body (jsonEncoder marshal neverFails)) ((w, none), f)
        (r, none)).1.2) := by
      rw [← b2]
    simp only [List.map_cons, ofList.loop, b3, if_true]
    rw [hst]
    obtain ⟨i1, i2, i3⟩ := ih (n + 1) (jsonEncode marshal neverFails w r).1 _ e2 hitem'
      (fun r' hr' => hm r' (List.mem_cons_of_mem r hr'))
    refine ⟨i1, i2, ?_⟩
    rw [i3, e3]
    simp [documents]

/-- C7 (amended): for every stream of `N` well-formed JSON objects each of which
`encoding/json` decodes into a map and serializes again without error, a program
whose `Filter` always returns `(true, nil)`, a context that is never cancelled and
a sink that never fails, the pipeline `ToMaps -> ToFiltered -> WriteAll` returns
nil, and after the final flush the sink holds exactly the `N` newline-terminated
serializations of the input records, in input order, with nothing left in the
buffer. -/
theorem pipeline_tautology (cs : List (Chunk V)) (fuel : Nat) (ctx : Context)
    (prog : CelProgram (GoMap (GoMap V))) (marshal : Marshal V)
    (hdec : decodable cs = true) (hfuel : (objectsOf cs).length < fuel)
    (hctx : ∀ t, ctx t = none) (hF : ∀ c item, prog.Filter c item = (true, none))
    (hm : ∀ m ∈ objectsOf cs, (marshal (recordOf m)).2 = none) :
    (pipeline (streamDecoder V) cs fuel ctx prog marshal neverFails).ret = some none ∧
    (pipeline (streamDecoder V) cs fuel ctx prog marshal neverFails).writer =
      ⟨documents ((objectsOf cs).map (fun m => (marshal (recordOf m)).1)), [], none⟩ := by
  obtain ⟨hs, hr⟩ := ToMaps_loop_decodable
    (JsonMaps.ToFiltered.body ctx prog
      (JsonWriter.WriteAll.body (jsonEncoder marshal neverFails)))
    cs fuel 0 (some []) ((BufWriter.new, none), ⟨some [], 0, []⟩) hdec hfuel
  obtain ⟨i1, i2, i3⟩ := pipeline_loop_tautology ctx prog marshal hctx hF
    ((objectsOf cs).map recordOf) 0 BufWriter.new ⟨some [], 0, []⟩ rfl rfl
    (by
      intro r hr
      obtain ⟨m, hmem, rfl⟩ := List.mem_map.mp hr
      exact hm m hmem)
  simp only [List.map_map, Function.comp_def] at i1 i2 i3
  rw [← hs] at i1 i2 i3
  have hfl := Flush_neverFails _ i2
  rw [i3] at hfl
  have hfl' : (jsonEncoder marshal neverFails).Flush
      (JsonReader.ToMaps.loop (streamDecoder V)
        (JsonMaps.ToFiltered.body ctx prog
          (JsonWriter.WriteAll.body (jsonEncoder marshal neverFails)))
        fuel cs (some []) ((BufWriter.new, none), ⟨some [], 0, []⟩)).state.1.1 = _ := hfl
  simp only [pipeline, JsonWriter.WriteAll, JsonMaps.ToFiltered, JsonReader.ToMaps, hr,
    if_true, i1, hfl']
  simp [BufWriter.new]

/-- C7, a run: three objects under the expression `true`. -/
theorem pipeline_tautology_witness :
    (pipeline (streamDecoder Nat)
        [Chunk.object [("a", 1)], Chunk.space, Chunk.object [("a", 2)], Chunk.space,
          Chunk.object [("a", 3)], Chunk.space] 4 background
        (constProgram _ (GoAny.bool true)) sampleMarshal neverFails).ret = some none ∧
    (pipeline (streamDecoder Nat)
        [Chunk.object [("a", 1)], Chunk.space, Chunk.object [("a", 2)], Chunk.space,
          Chunk.object [("a", 3)], Chunk.space] 4 background
        (constProgram _ (GoAny.bool true)) sampleMarshal neverFails).writer =
      ⟨documents [[123, 34, 97, 34, 58, 49, 125], [123, 34, 97, 34, 58, 50, 125],
        [123, 34, 97, 34, 58, 51, 125]], [], none⟩ :=
  pipeline_tautology [Chunk.object [("a", 1)], Chunk.space, Chunk.object [("a", 2)],
    Chunk.space, Chunk.object [("a", 3)], Chunk.space] 4 background
    (constProgram _ (GoAny.bool true)) sampleMarshal (by decide) (by decide)
    (fun _ => rfl) (fun _ _ => rfl) (by decide)

/-- C7 as stated fails: on the stream `{"a":1} {"a":1e999}` of two well-formed JSON
objects, under the expression `true`, a context that is never cancelled and a sink
that never fails, the pipeline returns the decoder's `UnmarshalTypeError` instead
of nil, and the sink does not hold two documents (it holds none: `WriteAll` returns
the error before it encodes the second record, and without flushing the first). -/
theorem pipeline_tautology_counterexample :
    wellFormed [Chunk.object [("a", some 1)],
      Chunk.objectOutOfRange [("a", (none : Option Nat))]
        (GoError.other "cannot unmarshal number 1e999")] = true ∧
    (pipeline (streamDecoder (Option Nat))
        [Chunk.object [("a", some 1)],
          Chunk.objectOutOfRange [("a", none)]
            (GoError.other "cannot unmarshal number 1e999")]
        9 background (constProgram _ (GoAny.bool true)) sampleMarshalNull neverFails).ret =
      some (some (GoError.other "cannot unmarshal number 1e999")) ∧
    (pipeline (streamDecoder (Option Nat))
        [Chunk.object [("a", some 1)],
          Chunk.objectOutOfRange [("a", none)]
            (GoError.other "cannot unmarshal number 1e999")]
        9 background (constProgram _ (GoAny.bool true)) sampleMarshalNull neverFails).ret ≠
      some none ∧
    (pipeline (streamDecoder (Option Nat))
        [Chunk.object [("a", some 1)],
          Chunk.objectOutOfRange [("a", none)]
            (GoError.other "cannot unmarshal number 1e999")]
        9 background (constProgram _ (GoAny.bool true)) sampleMarshalNull
        neverFails).writer.sink = [] := by
  decide

/-- C2, at the stream `{"a":1} {"a":2} <malformed> {"a":4}` under the expression
`item.a > 1`: the pipeline returns the decode error and stops reading at the
malformed document, but the accepted record `{"a":2}` is still in the buffer of the
`bufio.Writer`, which `WriteAll` does not flush when it returns an error: the sink
is empty. -/
theorem pipeline_decode_error_unflushed :
    (pipeline (streamDecoder Nat)
        [Chunk.object [("a", 1)], Chunk.object [("a", 2)],
          Chunk.malformed (GoError.other "invalid character"), Chunk.object [("a", 4)]]
        9 background sampleProgram sampleMarshal neverFails).ret =
      some (some (GoError.other "invalid character")) ∧
    (pipeline (streamDecoder Nat)
        [Chunk.object [("a", 1)], Chunk.object [("a", 2)],
          Chunk.malformed (GoError.other "invalid character"), Chunk.object [("a", 4)]]
        9 background sampleProgram sampleMarshal neverFails).writer.sink = [] ∧
    (pipeline (streamDecoder Nat)
        [Chunk.object [("a", 1)], Chunk.object [("a", 2)],
          Chunk.malformed (GoError.other "invalid character"), Chunk.object [("a", 4)]]
        9 background sampleProgram sampleMarshal neverFails).writer.buf =
      documents [[123, 34, 97, 34, 58, 50, 125]] ∧
    (pipeline (streamDecoder Nat)
        [Chunk.object [("a", 1)], Chunk.object [("a", 2)],
          Chunk.malformed (GoError.other "invalid character"), Chunk.object [("a", 4)]]
        9 background sampleProgram sampleMarshal neverFails).info.1 =
      [Chunk.malformed (GoError.other "invalid character"), Chunk.object [("a", 4)]] := by
  decide

end Pipeline

end Json2Cel2Filtered
